import Mathlib

/-!
Shallow embedding of the cryptoGo deterministic sequencer core
(`internal/engine/sequencer.go`, `internal/event`, `internal/domain`,
`internal/strategy/sma_cross.go`, `pkg/safe`) together with proofs of the
spec claims about it.

Machine integers are modelled as `Int` (Go `int64`) and `Nat` (Go `uint64`),
with two's-complement wrap-around made explicit where the source relies on a
conversion (`int64(evSeq) - int64(expected)` in `ValidateSequence`).
Go panics are modelled as `Except.error`.
-/

namespace CryptoGo

/-- Smallest value of a Go `int64`. -/
def int64Min : Int := -(2 ^ 63)

/-- Largest value of a Go `int64`. -/
def int64Max : Int := 2 ^ 63 - 1

/-- Modelled from the spec: `pkg/safe.SafeAdd` (the `pkg/safe` sources are not
in the repository snapshot). Checked 64-bit signed addition: agrees with
`a + b` whenever the sum is representable, otherwise terminates the process
(spec section 4.1 and the SafeMath law in section 8). -/
def SafeAdd (a b : Int) : Except String Int :=
  if int64Min ≤ a + b ∧ a + b ≤ int64Max then .ok (a + b)
  else .error "SAFE_ADD_OVERFLOW"

/-- Modelled from the spec: `pkg/safe.SafeSub`, checked 64-bit signed
subtraction (spec section 4.1). -/
def SafeSub (a b : Int) : Except String Int :=
  if int64Min ≤ a - b ∧ a - b ≤ int64Max then .ok (a - b)
  else .error "SAFE_SUB_OVERFLOW"

/-- Modelled from the spec: `pkg/safe.SafeDiv`, checked 64-bit signed
division rounding toward zero; division by zero terminates the process
(spec section 4.1). -/
def SafeDiv (a b : Int) : Except String Int :=
  if b = 0 then .error "SAFE_DIV_ZERO"
  else if int64Min ≤ a.tdiv b ∧ a.tdiv b ≤ int64Max then .ok (a.tdiv b)
  else .error "SAFE_DIV_OVERFLOW"

/-- Go conversion `int64(x)` of a `uint64` value: two's-complement
reinterpretation. -/
def uint64ToInt64 (x : Nat) : Int :=
  if x % 2 ^ 64 < 2 ^ 63 then ((x % 2 ^ 64 : Nat) : Int)
  else ((x % 2 ^ 64 : Nat) : Int) - 2 ^ 64

/-- Wrap-around of Go `int64` arithmetic: the representative of `x` modulo
`2^64` lying in `[-2^63, 2^63)`. -/
def int64Wrap (x : Int) : Int := (x + 2 ^ 63) % 2 ^ 64 - 2 ^ 63

/-- `MarketUpdateEvent` from `internal/event`. Modelled from the spec:
the struct definition itself is not in the snapshot; the field list is taken
from spec section 3 and from the reset code in `ReleaseMarketUpdateEvent`
(which zeroes `Seq, Ts, Symbol, PriceMicros, QtySats, Exchange`).
`Seq` is a `uint64`, the remaining numeric fields are `int64`. -/
structure MarketUpdateEvent where
  Seq : Nat
  Ts : Int
  Symbol : String
  PriceMicros : Int
  QtySats : Int
  Exchange : String
deriving DecidableEq, Repr

/-- `OrderUpdateEvent` from `internal/event`. Modelled from the spec:
fields per spec section 3 and the reset code in `ReleaseOrderUpdateEvent`. -/
structure OrderUpdateEvent where
  Seq : Nat
  Ts : Int
  OrderID : String
  Status : String
  PriceMicros : Int
  AccumulatedQtySats : Int
deriving DecidableEq, Repr

/-- The closed sum of event variants handled by the sequencer dispatch. -/
inductive Event where
  | market (e : MarketUpdateEvent)
  | order (e : OrderUpdateEvent)
deriving DecidableEq, Repr

/-- `Event.GetSeq` from the event interface. -/
def Event.GetSeq : Event → Nat
  | .market e => e.Seq
  | .order e => e.Seq

/-- `domain.MarketState` from `internal/domain/market.go`. -/
structure MarketState where
  PriceMicros : Int
  TotalQtySats : Int
  LastUpdateUnixM : Int
  Symbol : String
deriving DecidableEq, Repr

/-- The sequencer state owned by the hot path: the `markets` map, the
`nextSeq` counter, and the persisted WAL. The WAL (`storage.EventStore`,
not in the snapshot) is modelled from the spec as an append-only list whose
`append` always succeeds (spec section 4.3). -/
structure SequencerState where
  markets : String → Option MarketState
  nextSeq : Nat
  wal : List Event

/-- A freshly constructed sequencer: empty markets, `nextSeq = 1`, empty
WAL (`NewSequencer`). -/
def freshSequencer : SequencerState :=
  { markets := fun _ => none, nextSeq := 1, wal := [] }

/-- `Sequencer.handleMarketUpdate`: create the per-symbol state on first
touch, then overwrite price, quantity and timestamp. -/
def handleMarketUpdate (markets : String → Option MarketState)
    (e : MarketUpdateEvent) : String → Option MarketState :=
  let state := (markets e.Symbol).getD
    { PriceMicros := 0, TotalQtySats := 0, LastUpdateUnixM := 0, Symbol := e.Symbol }
  let state := { state with
    PriceMicros := e.PriceMicros
    TotalQtySats := e.QtySats
    LastUpdateUnixM := e.Ts }
  Function.update markets e.Symbol (some state)

/-- The logic-dispatch step of `processEvent` / `ReplayEvent`: a
`MarketUpdateEvent` mutates the markets map, an `OrderUpdateEvent` is
pending (no state change). -/
def applyEvent (markets : String → Option MarketState) :
    Event → (String → Option MarketState)
  | .market e => handleMarketUpdate markets e
  | .order _ => markets

/-- `Sequencer.ValidateSequence`: returns the (possibly fast-forwarded)
`nextSeq`, or an error for the fatal-gap panic. The duplicate branch only
logs and returns, leaving `nextSeq` unchanged. `diff` is computed exactly as
in the source: `int64(evSeq) - int64(expected)` with two's-complement
wrap-around. -/
def ValidateSequence (nextSeq evSeq : Nat) : Except String Nat :=
  if evSeq = nextSeq then .ok nextSeq
  else
    let diff := int64Wrap (uint64ToInt64 evSeq - uint64ToInt64 nextSeq)
    if diff < 0 then .ok nextSeq
    else if diff > 0 then
      if diff ≤ 10 then .ok evSeq
      else .error "SEQUENCE_GAP_FATAL"
    else .ok nextSeq

/-- `Sequencer.processEvent` (the live inbox path, with a non-nil store):
sequence validation, WAL-first persistence, dispatch, then
`nextSeq := nextSeq + 1`. -/
def processEvent (s : SequencerState) (ev : Event) : Except String SequencerState :=
  match ValidateSequence s.nextSeq ev.GetSeq with
  | .error msg => .error msg
  | .ok ns =>
    let s := { s with nextSeq := ns, wal := s.wal ++ [ev] }
    let s := { s with markets := applyEvent s.markets ev }
    .ok { s with nextSeq := s.nextSeq + 1 }

/-- `Sequencer.ReplayEvent`: strict sequence matching, dispatch without WAL
logging, then `nextSeq := nextSeq + 1`. -/
def ReplayEvent (s : SequencerState) (ev : Event) : Except String SequencerState :=
  if ev.GetSeq ≠ s.nextSeq then .error "REPLAY_GAP_DETECTED"
  else .ok { s with markets := applyEvent s.markets ev, nextSeq := s.nextSeq + 1 }

/-- Drive `processEvent` over a list of inbox events, halting at the first
panic (as `Run` would). -/
def processEvents : SequencerState → List Event → Except String SequencerState
  | s, [] => .ok s
  | s, ev :: evs =>
    match processEvent s ev with
    | .error msg => .error msg
    | .ok s1 => processEvents s1 evs

/-- Drive `ReplayEvent` over a list of WAL rows (the Replayer loop). -/
def replayEvents : SequencerState → List Event → Except String SequencerState
  | s, [] => .ok s
  | s, ev :: evs =>
    match ReplayEvent s ev with
    | .error msg => .error msg
    | .ok s1 => replayEvents s1 evs

/-- Fold of the pure markets-map effect of a list of events. -/
def applyEvents (markets : String → Option MarketState) (evs : List Event) :
    String → Option MarketState :=
  evs.foldl applyEvent markets

/-- `contiguousFromB n evs` holds when the events carry the consecutive
sequence numbers `n, n+1, ...` in order. -/
def contiguousFromB : Nat → List Event → Bool
  | _, [] => true
  | n, ev :: evs => ev.GetSeq = n && contiguousFromB (n + 1) evs

/-- Events for the replay counterexample: a live stream with a tolerated
gap (seq 1 then seq 3). -/
def c2ev1 : Event := .market ⟨1, 1000, "BTC-KRW", 100, 5, "UPBIT"⟩

/-- Second event of the replay counterexample, with seq 3. -/
def c2ev3 : Event := .market ⟨3, 1001, "BTC-KRW", 200, 5, "UPBIT"⟩

/-- The duplicated event used for the duplicate-handling failing input. -/
def c1dupEvent : Event := .market ⟨1, 1000, "BTC-KRW", 100, 5, "UPBIT"⟩

/-- An event whose seq exceeds a fresh sequencer's `next_seq` by `2^63 + 4`:
the signed-cast `diff` in `ValidateSequence` wraps negative. -/
def c4hugeEvent : Event := .market ⟨2 ^ 63 + 5, 0, "BTC-KRW", 1, 1, "UPBIT"⟩

/-- Gap-of-ten event for the boundary witness (fresh sequencer). -/
def c4ev11 : Event := .market ⟨11, 0, "BTC-KRW", 1, 1, "UPBIT"⟩

/-- Gap-of-nineteen event for the fatal-gap witness (fresh sequencer),
spec scenario 3. -/
def c4ev20 : Event := .market ⟨20, 0, "BTC-KRW", 1, 1, "UPBIT"⟩

/-- Fast-forward witness event for the next-seq invariant (seq 5 against a
fresh sequencer). -/
def c3ev5 : Event := .market ⟨5, 0, "BTC-KRW", 1, 1, "UPBIT"⟩

/-- `domain.Balance` (account balance with invariant checking). -/
structure Balance where
  Symbol : String
  AmountSats : Int
  ReservedSats : Int
  LastSeq : Nat
deriving DecidableEq, Repr

/-- `Balance.AvailableSats`: total minus reserved via `safe.SafeSub`. -/
def Balance.AvailableSats (b : Balance) : Except String Int :=
  SafeSub b.AmountSats b.ReservedSats

/-- `Balance.Credit`: adds funds; panics on overflow. -/
def Balance.Credit (b : Balance) (amountSats : Int) (seq : Nat) :
    Except String Balance :=
  match SafeAdd b.AmountSats amountSats with
  | .error msg => .error msg
  | .ok amt => .ok { b with AmountSats := amt, LastSeq := seq }

/-- `Balance.Debit`: removes funds; panics if insufficient or on overflow. -/
def Balance.Debit (b : Balance) (amountSats : Int) (seq : Nat) :
    Except String Balance :=
  match b.AvailableSats with
  | .error msg => .error msg
  | .ok avail =>
    if amountSats > avail then .error "BALANCE_INSUFFICIENT"
    else
      match SafeSub b.AmountSats amountSats with
      | .error msg => .error msg
      | .ok amt => .ok { b with AmountSats := amt, LastSeq := seq }

/-- `Balance.Reserve`: locks funds for an order. -/
def Balance.Reserve (b : Balance) (amountSats : Int) (seq : Nat) :
    Except String Balance :=
  match b.AvailableSats with
  | .error msg => .error msg
  | .ok avail =>
    if amountSats > avail then .error "BALANCE_RESERVE_INSUFFICIENT"
    else
      match SafeAdd b.ReservedSats amountSats with
      | .error msg => .error msg
      | .ok r => .ok { b with ReservedSats := r, LastSeq := seq }

/-- `Balance.Release`: unlocks reserved funds. -/
def Balance.Release (b : Balance) (amountSats : Int) (seq : Nat) :
    Except String Balance :=
  if amountSats > b.ReservedSats then .error "BALANCE_RELEASE_EXCEEDS_RESERVED"
  else
    match SafeSub b.ReservedSats amountSats with
    | .error msg => .error msg
    | .ok r => .ok { b with ReservedSats := r, LastSeq := seq }

/-- The balance invariants checked by `Balance.VerifyInvariant`:
`amount_sats ≥ 0`, `reserved_sats ≥ 0`, `reserved_sats ≤ amount_sats`. -/
def BalanceInv (b : Balance) : Prop :=
  0 ≤ b.AmountSats ∧ 0 ≤ b.ReservedSats ∧ b.ReservedSats ≤ b.AmountSats

/-- Selector for the four mutation entry points of `Balance`. -/
inductive BalanceOp where
  | credit
  | deb
  | reserv
  | relea
deriving DecidableEq, Repr

/-- Apply one of the four `Balance` mutations. -/
def applyBalanceOp : BalanceOp → Balance → Int → Nat → Except String Balance
  | .credit, b, a, seq => b.Credit a seq
  | .deb, b, a, seq => b.Debit a seq
  | .reserv, b, a, seq => b.Reserve a seq
  | .relea, b, a, seq => b.Release a seq

/-- Concrete balance for the invariant counterexample. -/
def c5zeroBalance : Balance := ⟨"USDT", 0, 0, 0⟩

/-- Concrete balance for the invariant-preservation witness. -/
def c5demoBalance : Balance := ⟨"BTC", 10, 2, 0⟩

/-- `strategy.ActionType`. -/
inductive ActionType where
  | buy
  | sell
deriving DecidableEq, Repr

/-- `strategy.Action` (field `Type` in the source is spelled `type` here,
`Type` being reserved in Lean). -/
structure Action where
  type : ActionType
  Symbol : String
  Price : Int
  Qty : Int
deriving DecidableEq, Repr

/-- `strategy.SMACrossStrategy`: ring buffer of `longPeriod` prices, write
head, fill count, running sum, and the previous SMA pair. All Go `int` and
`int64` fields are `Int`. -/
structure SMACrossStrategy where
  symbol : String
  shortPeriod : Int
  longPeriod : Int
  prices : List Int
  head : Int
  count : Int
  sum : Int
  prevShortSMA : Int
  prevLongSMA : Int
deriving DecidableEq, Repr

/-- `strategy.NewSMACrossStrategy`: rejects `shortPeriod ≥ longPeriod`
explicitly; `make([]int64, longPeriod)` additionally panics at runtime when
`longPeriod` is negative. -/
def NewSMACrossStrategy (symbol : String) (shortPeriod longPeriod : Int) :
    Except String SMACrossStrategy :=
  if shortPeriod ≥ longPeriod then
    .error "SMACrossStrategy: shortPeriod must be less than longPeriod"
  else if longPeriod < 0 then .error "makeslice: len out of range"
  else .ok { symbol := symbol, shortPeriod := shortPeriod, longPeriod := longPeriod,
             prices := List.replicate longPeriod.toNat 0, head := 0, count := 0,
             sum := 0, prevShortSMA := 0, prevLongSMA := 0 }

/-- Go's `%` on `int` values: truncated remainder, panicking on a zero
divisor. -/
def goIntMod (a b : Int) : Except String Int :=
  if b = 0 then .error "runtime error: integer divide by zero"
  else .ok (a.tmod b)

/-- The loop of `calculateShortSMA`: walk `shortPeriod` steps backwards from
the head, wrapping at 0, summing with `safe.SafeAdd`. The `Nat` fuel is the
iteration count of Go's `for i := 0; i < s.shortPeriod; i++`. -/
def shortSMALoop (prices : List Int) (longPeriod : Int) :
    Int → Int → Nat → Except String Int
  | _, sum, 0 => .ok sum
  | idx, sum, Nat.succ k =>
    let idx := idx - 1
    let idx := if idx < 0 then longPeriod - 1 else idx
    match SafeAdd sum (prices.getD idx.toNat 0) with
    | .error msg => .error msg
    | .ok sum => shortSMALoop prices longPeriod idx sum k

/-- `SMACrossStrategy.calculateShortSMA`. -/
def calculateShortSMA (s : SMACrossStrategy) : Except String Int :=
  match shortSMALoop s.prices s.longPeriod s.head 0 s.shortPeriod.toNat with
  | .error msg => .error msg
  | .ok sum => SafeDiv sum s.shortPeriod

/-- Step 2 of `OnMarketUpdate` ("Update Price History"): if the ring buffer
is full, subtract the element about to be overwritten from the running sum;
write the new price; add it to the sum; advance the head modulo
`longPeriod`; increment the count up to `longPeriod`. In-range list reads
(`prices[head]` on the live paths) are modelled with `List.getD`. -/
def insertPrice (s : SMACrossStrategy) (currentPrice : Int) :
    Except String SMACrossStrategy :=
  match (if s.count = s.longPeriod then
           SafeSub s.sum (s.prices.getD s.head.toNat 0)
         else .ok s.sum) with
  | .error msg => .error msg
  | .ok sum =>
    match SafeAdd sum currentPrice with
    | .error msg => .error msg
    | .ok sum =>
      match goIntMod (s.head + 1) s.longPeriod with
      | .error msg => .error msg
      | .ok head =>
        .ok { s with prices := s.prices.set s.head.toNat currentPrice,
                     sum := sum, head := head,
                     count := if s.count < s.longPeriod then s.count + 1
                              else s.count }

/-- Step 5 of `OnMarketUpdate` ("Check for Cross"): golden cross appends a
Buy, dead cross appends a Sell; both are guarded by nonzero previous SMAs.
`prev` comparisons read the pre-update strategy state `s`. -/
def crossActions (s : SMACrossStrategy) (price currShortSMA currLongSMA : Int) :
    List Action :=
  if s.prevShortSMA ≠ 0 ∧ s.prevLongSMA ≠ 0 then
    (if s.prevShortSMA ≤ s.prevLongSMA ∧ currShortSMA > currLongSMA then
       [{ type := .buy, Symbol := s.symbol, Price := price, Qty := 10000 }]
     else []) ++
    (if s.prevShortSMA ≥ s.prevLongSMA ∧ currShortSMA < currLongSMA then
       [{ type := .sell, Symbol := s.symbol, Price := price, Qty := 10000 }]
     else [])
  else []

/-- `SMACrossStrategy.OnMarketUpdate`: filter by symbol, ring-buffer insert
(with running-sum maintenance), warm-up short-circuit, SMA computation,
cross detection, and previous-SMA update. -/
def OnMarketUpdate (s : SMACrossStrategy) (state : MarketState) :
    Except String (SMACrossStrategy × List Action) :=
  if state.Symbol ≠ s.symbol then .ok (s, [])
  else
    match insertPrice s state.PriceMicros with
    | .error msg => .error msg
    | .ok s1 =>
      if s1.count < s1.longPeriod then .ok (s1, [])
      else
        match SafeDiv s1.sum s1.longPeriod with
        | .error msg => .error msg
        | .ok currLongSMA =>
          match calculateShortSMA s1 with
          | .error msg => .error msg
          | .ok currShortSMA =>
            .ok ({ s1 with prevShortSMA := currShortSMA,
                           prevLongSMA := currLongSMA },
                 crossActions s state.PriceMicros currShortSMA currLongSMA)

/-- Feed a list of prices for symbol `sym` through `OnMarketUpdate`,
collecting the returned action lists in order. -/
def runUpdates (sym : String) :
    SMACrossStrategy → List Int → Except String (SMACrossStrategy × List (List Action))
  | s, [] => .ok (s, [])
  | s, p :: ps =>
    match OnMarketUpdate s { PriceMicros := p, TotalQtySats := 0,
                             LastUpdateUnixM := 0, Symbol := sym } with
    | .error msg => .error msg
    | .ok (s1, acts) =>
      match runUpdates sym s1 ps with
      | .error msg => .error msg
      | .ok (s2, rest) => .ok (s2, acts :: rest)

/-- The ring-buffer representation invariant tying a strategy state to the
history `hs` of prices inserted so far (`Ln` is the long period as a `Nat`):
correct configuration fields, buffer length, head and count positions,
running sum over the last `Ln` inserts, and buffer contents. -/
def Faithful (sym : String) (S : Int) (Ln : Nat) (hs : List Int)
    (s : SMACrossStrategy) : Prop :=
  s.symbol = sym ∧
  s.shortPeriod = S ∧
  s.longPeriod = (Ln : Int) ∧
  s.prices.length = Ln ∧
  s.head = ((hs.length % Ln : Nat) : Int) ∧
  s.count = ((min hs.length Ln : Nat) : Int) ∧
  s.sum = (hs.drop (hs.length - Ln)).sum ∧
  ∀ j : Nat, hs.length ≤ j + Ln → j < hs.length →
    s.prices.getD (j % Ln) 0 = hs.getD j 0

/-- Fresh SMA(3,5) strategy, as returned by `NewSMACrossStrategy "BTC" 3 5`. -/
def c7s0 : SMACrossStrategy :=
  ⟨"BTC", 3, 5, [0, 0, 0, 0, 0], 0, 0, 0, 0, 0⟩

/-- State of the SMA(3,5) strategy after the six demo updates
`[100, 100, 100, 100, 100, 200]`. -/
def c7sFinal : SMACrossStrategy :=
  ⟨"BTC", 3, 5, [200, 100, 100, 100, 100], 1, 5, 600, 133, 120⟩

/-- Action lists produced by the six demo updates. -/
def c7acts : List (List Action) :=
  [[], [], [], [], [], [⟨.buy, "BTC", 200, 10000⟩]]

/-- State of a fresh SMA(3,5) strategy after one update at price 100. -/
def c8s1 : SMACrossStrategy :=
  ⟨"BTC", 3, 5, [100, 0, 0, 0, 0], 1, 1, 100, 0, 0⟩

/-- Market snapshot used by the warm-up witness: price 100 on "BTC". -/
def c8state : MarketState := ⟨100, 0, 0, "BTC"⟩

/-- The zero-valued `MarketUpdateEvent` produced by the pool constructor. -/
def zeroMarketUpdateEvent : MarketUpdateEvent := ⟨0, 0, "", 0, 0, ""⟩

/-- Field reset performed by `ReleaseMarketUpdateEvent` before
return-to-pool. -/
def resetMarketUpdateEvent (ev : MarketUpdateEvent) : MarketUpdateEvent :=
  { ev with Seq := 0, Ts := 0, Symbol := "", PriceMicros := 0, QtySats := 0,
            Exchange := "" }

/-- `event.AcquireMarketUpdateEvent`: pop a pooled object, or construct a
zero-valued one (`sync.Pool.New`). -/
def AcquireMarketUpdateEvent :
    List MarketUpdateEvent → MarketUpdateEvent × List MarketUpdateEvent
  | [] => (zeroMarketUpdateEvent, [])
  | e :: rest => (e, rest)

/-- `event.ReleaseMarketUpdateEvent`: zero all fields, then put the object
back in the pool. -/
def ReleaseMarketUpdateEvent (ev : MarketUpdateEvent)
    (pool : List MarketUpdateEvent) : List MarketUpdateEvent :=
  resetMarketUpdateEvent ev :: pool

/-- A client interaction with the pool: an acquire, or a release of some
event value. -/
inductive PoolOp where
  | acq
  | rel (ev : MarketUpdateEvent)

/-- Run a list of pool operations, returning the final pool and every event
handed out by an acquire, in order. -/
def runPool : List MarketUpdateEvent → List PoolOp →
    List MarketUpdateEvent × List MarketUpdateEvent
  | pool, [] => (pool, [])
  | pool, .acq :: ops =>
    let r := AcquireMarketUpdateEvent pool
    let rest := runPool r.2 ops
    (rest.1, r.1 :: rest.2)
  | pool, .rel ev :: ops => runPool (ReleaseMarketUpdateEvent ev pool) ops

/-- Sample populated event for the pool round-trip witness. -/
def c9sampleEv : MarketUpdateEvent := ⟨7, 8, "BTC", 9, 10, "UPBIT"⟩

instance (b : Balance) : Decidable (BalanceInv b) :=
  inferInstanceAs (Decidable (0 ≤ b.AmountSats ∧ 0 ≤ b.ReservedSats ∧
    b.ReservedSats ≤ b.AmountSats))

/- ------------------------------------------------------------------ -/
/- Theorems                                                            -/
/- ------------------------------------------------------------------ -/

/-- On inputs that are genuine `uint64` values with a small forward gap, the
source's signed-cast difference is the ordinary difference. -/
theorem int64Wrap_sub_eq (e n : Nat) (hne : n ≤ e) (he : e < 2 ^ 64)
    (hsmall : e - n < 2 ^ 63) :
    int64Wrap (uint64ToInt64 e - uint64ToInt64 n) = (e : Int) - (n : Int) := by
  have hn : n < 2 ^ 64 := lt_of_le_of_lt hne he
  unfold int64Wrap uint64ToInt64
  rw [Nat.mod_eq_of_lt he, Nat.mod_eq_of_lt hn]
  split <;> split <;> omega

/-- C3: every event accepted by sequence validation (equal seq, or a
forward gap of at most the tolerance 10, fast-forwarded) is processed
successfully, and when `processEvent` returns, `next_seq` equals the applied
event's seq plus one. -/
theorem processEvent_nextSeq_succ (s : SequencerState) (ev : Event)
    (h1 : s.nextSeq ≤ ev.GetSeq) (h2 : ev.GetSeq ≤ s.nextSeq + 10)
    (h3 : ev.GetSeq < 2 ^ 64) :
    ∃ s', processEvent s ev = .ok s' ∧ s'.nextSeq = ev.GetSeq + 1 := by
  unfold processEvent ValidateSequence
  by_cases heq : ev.GetSeq = s.nextSeq
  · simp only [heq, if_pos rfl]
    exact ⟨_, rfl, by simp [heq]⟩
  · have hwrap := int64Wrap_sub_eq ev.GetSeq s.nextSeq h1 h3 (by omega)
    simp only [if_neg heq, hwrap]
    have hpos : (0 : Int) < (ev.GetSeq : Int) - (s.nextSeq : Int) := by
      have : s.nextSeq < ev.GetSeq := lt_of_le_of_ne h1 (Ne.symm heq)
      omega
    have hle : (ev.GetSeq : Int) - (s.nextSeq : Int) ≤ 10 := by omega
    rw [if_neg (by omega), if_pos hpos, if_pos hle]
    exact ⟨_, rfl, rfl⟩

/-- Witness for the next-seq invariant: a fresh sequencer given seq 5
(tolerated gap of 4) ends with `next_seq = 6`. -/
theorem processEvent_nextSeq_succ_witness :
    freshSequencer.nextSeq ≤ c3ev5.GetSeq ∧ c3ev5.GetSeq ≤ freshSequencer.nextSeq + 10 ∧
    c3ev5.GetSeq < 2 ^ 64 ∧
    ∃ s', processEvent freshSequencer c3ev5 = .ok s' ∧ s'.nextSeq = c3ev5.GetSeq + 1 :=
  ⟨by decide, by decide, by decide,
    processEvent_nextSeq_succ freshSequencer c3ev5 (by decide) (by decide) (by decide)⟩

/-- C1 (failing-input evaluation): processing the same seq-1 event twice on
a fresh sequencer leaves `next_seq = 3` and a WAL of length 2 — the
duplicate is persisted, dispatched and advances `next_seq`, although the
source logs it as `SEQUENCE_DUPLICATE_IGNORED` and the spec requires it to
be dropped without persisting or advancing. -/
theorem duplicate_event_is_processed :
    (processEvents freshSequencer [c1dupEvent, c1dupEvent]).toOption.map
      (fun s => (s.nextSeq, s.wal.length)) = some (3, 2) := by
  decide

/-- On a contiguous stream the live path always succeeds, appends exactly
the stream to the WAL, and its markets map is the pure fold of the events. -/
theorem processEvents_contiguous (evs : List Event) :
    ∀ (m : String → Option MarketState) (n : Nat) (w : List Event),
      contiguousFromB n evs = true →
      processEvents ⟨m, n, w⟩ evs = .ok ⟨applyEvents m evs, n + evs.length, w ++ evs⟩ := by
  induction evs with
  | nil => intro m n w _; simp [processEvents, applyEvents]
  | cons ev evs ih =>
    intro m n w hc
    simp only [contiguousFromB, Bool.and_eq_true, decide_eq_true_eq] at hc
    obtain ⟨hseq, hrest⟩ := hc
    have hproc : processEvent ⟨m, n, w⟩ ev =
        .ok ⟨applyEvent m ev, n + 1, w ++ [ev]⟩ := by
      simp [processEvent, ValidateSequence, hseq]
    simp only [processEvents, hproc]
    rw [ih (applyEvent m ev) (n + 1) (w ++ [ev]) hrest]
    simp [applyEvents, List.append_assoc]
    omega

/-- On a contiguous stream the replay path succeeds, leaves the WAL alone,
and its markets map is the same pure fold of the events. -/
theorem replayEvents_contiguous (evs : List Event) :
    ∀ (m : String → Option MarketState) (n : Nat) (w : List Event),
      contiguousFromB n evs = true →
      replayEvents ⟨m, n, w⟩ evs = .ok ⟨applyEvents m evs, n + evs.length, w⟩ := by
  induction evs with
  | nil => intro m n w _; simp [replayEvents, applyEvents]
  | cons ev evs ih =>
    intro m n w hc
    simp only [contiguousFromB, Bool.and_eq_true, decide_eq_true_eq] at hc
    obtain ⟨hseq, hrest⟩ := hc
    have hrep : ReplayEvent ⟨m, n, w⟩ ev = .ok ⟨applyEvent m ev, n + 1, w⟩ := by
      simp [ReplayEvent, hseq]
    simp only [replayEvents, hrep]
    rw [ih (applyEvent m ev) (n + 1) w hrest]
    simp [applyEvents]
    omega

/-- C2 (amended): for every finite event stream whose sequence numbers are
exactly `1, 2, ...` in order (each event arrives with the seq the sequencer
expects), the live path persists exactly the stream, and replaying that WAL
through `ReplayEvent` on a fresh sequencer reproduces the live run's markets
map and `next_seq` exactly. -/
theorem replay_reproduces_live (evs : List Event)
    (h : contiguousFromB 1 evs = true) :
    ∃ sl sr, processEvents freshSequencer evs = .ok sl ∧ sl.wal = evs ∧
      replayEvents freshSequencer sl.wal = .ok sr ∧
      sr.markets = sl.markets ∧ sr.nextSeq = sl.nextSeq := by
  have hp := processEvents_contiguous evs (fun _ => none) 1 [] h
  have hr := replayEvents_contiguous evs (fun _ => none) 1 [] h
  exact ⟨⟨applyEvents (fun _ => none) evs, 1 + evs.length, [] ++ evs⟩,
    ⟨applyEvents (fun _ => none) evs, 1 + evs.length, []⟩,
    hp, by simp, hr, rfl, rfl⟩

/-- Witness for the amended replay-determinism theorem on the concrete
contiguous stream `[seq 1, seq 2]`. -/
theorem replay_reproduces_live_witness :
    contiguousFromB 1 [c1dupEvent, c2ev3] = false ∧
    contiguousFromB 1 [c2ev1] = true ∧
    (∃ sl sr, processEvents freshSequencer [c2ev1] = .ok sl ∧ sl.wal = [c2ev1] ∧
      replayEvents freshSequencer sl.wal = .ok sr ∧
      sr.markets = sl.markets ∧ sr.nextSeq = sl.nextSeq) :=
  ⟨by decide, by decide, replay_reproduces_live [c2ev1] (by decide)⟩

/-- C2 (counterexample): the live path accepts the stream `[seq 1, seq 3]`
(tolerated gap) and persists both rows, but replaying that very WAL on a
fresh sequencer hits the strict check in `ReplayEvent` and halts with
`REPLAY_GAP_DETECTED` instead of reproducing the markets map. -/
theorem replay_of_tolerated_gap_fails :
    (processEvents freshSequencer [c2ev1, c2ev3]).toOption.map SequencerState.wal =
      some [c2ev1, c2ev3] ∧
    replayEvents freshSequencer [c2ev1, c2ev3] = .error "REPLAY_GAP_DETECTED" := by
  constructor
  · decide
  · rfl

/-- C4 (amended): with gap tolerance 10, an event whose seq exceeds
`next_seq` by exactly 10 is accepted — `next_seq` is fast-forwarded and the
event is persisted and processed — while an event whose gap is at least 11
but below `2^63` (so that the source's signed 64-bit difference is positive)
is fatal before persistence: `processEvent` halts with no WAL append and no
state mutation. -/
theorem gap_boundary :
    (∀ (s : SequencerState) (ev : Event),
      ev.GetSeq = s.nextSeq + 10 → ev.GetSeq < 2 ^ 64 →
      ∃ s', processEvent s ev = .ok s' ∧ s'.nextSeq = ev.GetSeq + 1 ∧
        s'.wal = s.wal ++ [ev]) ∧
    (∀ (s : SequencerState) (ev : Event),
      s.nextSeq + 11 ≤ ev.GetSeq → ev.GetSeq < s.nextSeq + 2 ^ 63 →
      ev.GetSeq < 2 ^ 64 →
      processEvent s ev = .error "SEQUENCE_GAP_FATAL") := by
  constructor
  · intro s ev hgap hlt
    have hwrap := int64Wrap_sub_eq ev.GetSeq s.nextSeq (by omega) hlt (by omega)
    unfold processEvent ValidateSequence
    rw [if_neg (by omega), hwrap]
    rw [if_neg (by omega), if_pos (by omega),
      if_pos (by omega)]
    exact ⟨_, rfl, rfl, rfl⟩
  · intro s ev hgap hbound hlt
    have hwrap := int64Wrap_sub_eq ev.GetSeq s.nextSeq (by omega) hlt (by omega)
    unfold processEvent ValidateSequence
    rw [if_neg (by omega), hwrap]
    rw [if_neg (by omega), if_pos (by omega),
      if_neg (by omega)]

/-- Witness for the gap-boundary theorem: a fresh sequencer accepts seq 11
(gap exactly 10) ending at `next_seq = 12` with one WAL row, and halts
fatally on seq 20 (gap 19, spec scenario 3). -/
theorem gap_boundary_witness :
    c4ev11.GetSeq = freshSequencer.nextSeq + 10 ∧
    (∃ s', processEvent freshSequencer c4ev11 = .ok s' ∧
      s'.nextSeq = c4ev11.GetSeq + 1 ∧ s'.wal = freshSequencer.wal ++ [c4ev11]) ∧
    freshSequencer.nextSeq + 11 ≤ c4ev20.GetSeq ∧
    processEvent freshSequencer c4ev20 = .error "SEQUENCE_GAP_FATAL" :=
  ⟨by decide,
    gap_boundary.1 freshSequencer c4ev11 (by decide) (by decide),
    by decide,
    gap_boundary.2 freshSequencer c4ev20 (by decide) (by decide) (by decide)⟩

/-- C4 (counterexample): an event whose seq exceeds a fresh sequencer's
`next_seq = 1` by `2^63 + 4` — far beyond the tolerance plus one — is not
fatal: the source's `int64` cast makes the difference negative, so the event
is treated as a duplicate, persisted to the WAL, processed, and leaves
`next_seq = 2`. -/
theorem huge_gap_not_fatal :
    freshSequencer.nextSeq + 11 ≤ c4hugeEvent.GetSeq ∧
    (processEvent freshSequencer c4hugeEvent).toOption.map
      (fun s => (s.nextSeq, s.wal.length)) = some (2, 1) := by
  constructor
  · decide
  · decide

/-- `SafeAdd` only succeeds with the exact sum. -/
theorem SafeAdd_ok_eq {a b c : Int} (h : SafeAdd a b = .ok c) : c = a + b := by
  unfold SafeAdd at h
  split at h
  · injection h with h; exact h.symm
  · injection h

/-- `SafeSub` only succeeds with the exact difference. -/
theorem SafeSub_ok_eq {a b c : Int} (h : SafeSub a b = .ok c) : c = a - b := by
  unfold SafeSub at h
  split at h
  · injection h with h; exact h.symm
  · injection h

/-- C5 (amended): every `Balance` mutation (`Credit`, `Debit`, `Reserve`,
`Release`) called with a nonnegative amount on a state satisfying the
balance invariants returns — when it does not panic — a state that still
satisfies `amount_sats ≥ 0`, `reserved_sats ≥ 0` and
`reserved_sats ≤ amount_sats`. -/
theorem balance_ops_preserve_invariant (op : BalanceOp) (b : Balance) (a : Int)
    (seq : Nat) (b' : Balance) (hInv : BalanceInv b) (ha : 0 ≤ a)
    (h : applyBalanceOp op b a seq = .ok b') : BalanceInv b' := by
  obtain ⟨h1, h2, h3⟩ := hInv
  cases op with
  | credit =>
    simp only [applyBalanceOp, Balance.Credit] at h
    cases hadd : SafeAdd b.AmountSats a with
    | error msg => simp only [hadd] at h; injection h
    | ok amt =>
      simp only [hadd] at h
      have hval := SafeAdd_ok_eq hadd
      injection h with h
      subst h
      show 0 ≤ amt ∧ 0 ≤ b.ReservedSats ∧ b.ReservedSats ≤ amt
      omega
  | deb =>
    simp only [applyBalanceOp, Balance.Debit, Balance.AvailableSats] at h
    cases hav : SafeSub b.AmountSats b.ReservedSats with
    | error msg => simp only [hav] at h; injection h
    | ok avail =>
      simp only [hav] at h
      have havval := SafeSub_ok_eq hav
      split at h
      · injection h
      · cases hsub : SafeSub b.AmountSats a with
        | error msg => simp only [hsub] at h; injection h
        | ok amt =>
          simp only [hsub] at h
          have hval := SafeSub_ok_eq hsub
          injection h with h
          subst h
          show 0 ≤ amt ∧ 0 ≤ b.ReservedSats ∧ b.ReservedSats ≤ amt
          omega
  | reserv =>
    simp only [applyBalanceOp, Balance.Reserve, Balance.AvailableSats] at h
    cases hav : SafeSub b.AmountSats b.ReservedSats with
    | error msg => simp only [hav] at h; injection h
    | ok avail =>
      simp only [hav] at h
      have havval := SafeSub_ok_eq hav
      split at h
      · injection h
      · cases hadd : SafeAdd b.ReservedSats a with
        | error msg => simp only [hadd] at h; injection h
        | ok r =>
          simp only [hadd] at h
          have hval := SafeAdd_ok_eq hadd
          injection h with h
          subst h
          show 0 ≤ b.AmountSats ∧ 0 ≤ r ∧ r ≤ b.AmountSats
          omega
  | relea =>
    simp only [applyBalanceOp, Balance.Release] at h
    split at h
    · injection h
    · cases hsub : SafeSub b.ReservedSats a with
      | error msg => simp only [hsub] at h; injection h
      | ok r =>
        simp only [hsub] at h
        have hval := SafeSub_ok_eq hsub
        injection h with h
        subst h
        show 0 ≤ b.AmountSats ∧ 0 ≤ r ∧ r ≤ b.AmountSats
        omega

/-- Witness for the balance-invariant theorem: reserving 3 sats on the
balance `(amount 10, reserved 2)` yields `(amount 10, reserved 5)`, which
still satisfies the invariants. -/
theorem balance_ops_preserve_invariant_witness :
    BalanceInv c5demoBalance ∧ (0 : Int) ≤ 3 ∧ BalanceInv ⟨"BTC", 10, 5, 7⟩ :=
  ⟨by decide, by decide,
    balance_ops_preserve_invariant .reserv c5demoBalance 3 7 ⟨"BTC", 10, 5, 7⟩
      (by decide) (by decide) (by rfl)⟩

/-- C5 (counterexample): `Credit` with the negative amount `-1` on the
invariant-satisfying balance `(0, 0)` returns without panicking, yet its
result violates `amount_sats ≥ 0` (the mutations check nothing about the
sign of their argument). -/
theorem credit_negative_breaks_invariant :
    BalanceInv c5zeroBalance ∧
    c5zeroBalance.Credit (-1) 1 = .ok ⟨"USDT", -1, 0, 1⟩ ∧
    ¬ BalanceInv ⟨"USDT", -1, 0, 1⟩ :=
  ⟨by decide, by rfl, by decide⟩

/-- C6: starting from a fresh SMA-cross strategy with short period 3 and
long period 5 on symbol "BTC", five updates at price 100 each return an
empty action list and the sixth update at price 200 returns exactly one Buy
action at price 200 for 10000 sats, with current short SMA
`(100+100+200)/3 = 133` and long SMA `600/5 = 120` (integer division toward
zero, recorded as the new previous pair). -/
theorem sma_golden_cross_scenario :
    NewSMACrossStrategy "BTC" 3 5 = .ok c7s0 ∧
    (runUpdates "BTC" c7s0 [100, 100, 100, 100, 100, 200]).toOption.map
      (fun r => (r.2, r.1.prevShortSMA, r.1.prevLongSMA)) =
      some ([[], [], [], [], [], [⟨.buy, "BTC", 200, 10000⟩]], 133, 120) := by
  constructor
  · rfl
  · decide

/-- Characterization of a successful ring-buffer insert: the three checked
operations succeeded and the new state is the source's field update. -/
theorem insertPrice_ok_eq {s : SMACrossStrategy} {p : Int} {s1 : SMACrossStrategy}
    (h : insertPrice s p = .ok s1) :
    ∃ sum1 sum2 hd,
      (if s.count = s.longPeriod then
         SafeSub s.sum (s.prices.getD s.head.toNat 0)
       else Except.ok s.sum) = .ok sum1 ∧
      SafeAdd sum1 p = .ok sum2 ∧
      goIntMod (s.head + 1) s.longPeriod = .ok hd ∧
      s1 = { s with prices := s.prices.set s.head.toNat p, sum := sum2, head := hd,
                    count := if s.count < s.longPeriod then s.count + 1
                             else s.count } := by
  unfold insertPrice at h
  cases h1 : (if s.count = s.longPeriod then
      SafeSub s.sum (s.prices.getD s.head.toNat 0) else Except.ok s.sum) with
  | error m => simp only [h1] at h; injection h
  | ok sum1 =>
    simp only [h1] at h
    cases h2 : SafeAdd sum1 p with
    | error m => simp only [h2] at h; injection h
    | ok sum2 =>
      simp only [h2] at h
      cases h3 : goIntMod (s.head + 1) s.longPeriod with
      | error m => simp only [h3] at h; injection h
      | ok hd =>
        simp only [h3] at h
        injection h with h
        exact ⟨sum1, sum2, hd, rfl, h2, rfl, h.symm⟩

/-- C8: any `OnMarketUpdate` call that returns while the buffer still holds
fewer than `longPeriod` samples after the insert (`count < L`) emits no
actions. -/
theorem warmup_returns_no_actions (s : SMACrossStrategy) (st : MarketState)
    (s' : SMACrossStrategy) (acts : List Action)
    (h : OnMarketUpdate s st = .ok (s', acts)) (hc : s'.count < s.longPeriod) :
    acts = [] := by
  unfold OnMarketUpdate at h
  by_cases hsym : st.Symbol ≠ s.symbol
  · rw [if_pos hsym] at h
    simp only [Except.ok.injEq, Prod.mk.injEq] at h
    exact h.2.symm
  · rw [if_neg hsym] at h
    cases hip : insertPrice s st.PriceMicros with
    | error m => simp only [hip] at h; injection h
    | ok s1 =>
      simp only [hip] at h
      by_cases hwarm : s1.count < s1.longPeriod
      · rw [if_pos hwarm] at h
        simp only [Except.ok.injEq, Prod.mk.injEq] at h
        exact h.2.symm
      · rw [if_neg hwarm] at h
        cases h4 : SafeDiv s1.sum s1.longPeriod with
        | error m => simp only [h4] at h; injection h
        | ok lsma =>
          simp only [h4] at h
          cases h5 : calculateShortSMA s1 with
          | error m => simp only [h5] at h; injection h
          | ok ssma =>
            simp only [h5] at h
            simp only [Except.ok.injEq, Prod.mk.injEq] at h
            obtain ⟨hs', -⟩ := h
            obtain ⟨sum1, sum2, hd, -, -, -, hrec⟩ := insertPrice_ok_eq hip
            subst hrec
            rw [← hs'] at hc
            dsimp only at hc hwarm
            exact absurd hc hwarm

/-- Witness for the warm-up theorem: the first update of a fresh SMA(3,5)
strategy leaves `count = 1 < 5` and indeed returns no actions. -/
theorem warmup_returns_no_actions_witness :
    OnMarketUpdate c7s0 c8state = .ok (c8s1, []) ∧
    c8s1.count < c7s0.longPeriod ∧ ([] : List Action) = [] :=
  ⟨by rfl, by decide,
    warmup_returns_no_actions c7s0 c8state c8s1 [] (by rfl) (by decide)⟩

/-- Every pool whose entries are all zero-valued hands out only zero-valued
events, whatever interleaving of acquires and releases follows. -/
theorem runPool_all_zero (ops : List PoolOp) :
    ∀ pool, (∀ e ∈ pool, e = zeroMarketUpdateEvent) →
      ∀ e ∈ (runPool pool ops).2, e = zeroMarketUpdateEvent := by
  induction ops with
  | nil => intro pool _ e he; simp [runPool] at he
  | cons op ops ih =>
    intro pool hz
    cases op with
    | acq =>
      cases pool with
      | nil =>
        intro e he
        simp only [runPool, AcquireMarketUpdateEvent, List.mem_cons] at he
        rcases he with he | he
        · simpa using he
        · exact ih [] (by simp) e he
      | cons p rest =>
        intro e he
        simp only [runPool, AcquireMarketUpdateEvent, List.mem_cons] at he
        rcases he with he | he
        · rw [he]; exact hz p (by simp)
        · exact ih rest (fun x hx => hz x (List.mem_cons_of_mem p hx)) e he
    | rel ev =>
      intro e he
      simp only [runPool] at he
      refine ih (ReleaseMarketUpdateEvent ev pool) ?_ e he
      intro x hx
      simp only [ReleaseMarketUpdateEvent, List.mem_cons] at hx
      rcases hx with hx | hx
      · rw [hx]; rfl
      · exact hz x hx

/-- C9: after `ReleaseMarketUpdateEvent ev` on any pool containing only
zero-valued objects, every event returned by a subsequent
`AcquireMarketUpdateEvent` — under any further interleaving of acquires and
releases — has all fields at their zero values: release zeroes all fields
before return-to-pool and the pool constructor builds zero-valued events. -/
theorem pool_roundtrip_zero (ev : MarketUpdateEvent)
    (pool : List MarketUpdateEvent) (ops : List PoolOp)
    (hz : ∀ e ∈ pool, e = zeroMarketUpdateEvent) :
    ∀ e ∈ (runPool (ReleaseMarketUpdateEvent ev pool) ops).2,
      e = zeroMarketUpdateEvent := by
  apply runPool_all_zero
  intro x hx
  simp only [ReleaseMarketUpdateEvent, List.mem_cons] at hx
  rcases hx with hx | hx
  · rw [hx]; rfl
  · exact hz x hx

/-- Witness for the pool round-trip theorem: releasing a fully populated
event into the empty pool and acquiring once hands out only zero-valued
events. -/
theorem pool_roundtrip_zero_witness :
    (∀ e ∈ ([] : List MarketUpdateEvent), e = zeroMarketUpdateEvent) ∧
    (∀ e ∈ (runPool (ReleaseMarketUpdateEvent c9sampleEv []) [PoolOp.acq]).2,
      e = zeroMarketUpdateEvent) :=
  ⟨fun e he => absurd he (List.not_mem_nil e),
    pool_roundtrip_zero c9sampleEv [] [PoolOp.acq]
      (fun e he => absurd he (List.not_mem_nil e))⟩

/-- Reading back the freshly written slot of a buffer. -/
theorem getD_set_self (l : List Int) (i : Nat) (a : Int) (h : i < l.length) :
    (l.set i a).getD i 0 = a := by
  show ((l.set i a).get? i).getD 0 = a
  rw [List.get?_set_eq_of_lt a h]
  rfl

/-- Reading any other slot of a buffer after a write. -/
theorem getD_set_ne (l : List Int) (i j : Nat) (a : Int) (h : i ≠ j) :
    (l.set i a).getD j 0 = l.getD j 0 := by
  show ((l.set i a).get? j).getD 0 = (l.get? j).getD 0
  rw [List.get?_set_ne a l h]

/-- Advancing the ring-buffer head: `(n % L + 1) % L = (n + 1) % L`,
stated over the integer casts the embedding uses. -/
theorem natCast_mod_add_one_emod (n Ln : Nat) :
    ((n % Ln + 1 : Nat) : Int) % ((Ln : Nat) : Int) = (((n + 1) % Ln : Nat) : Int) := by
  rw [← Int.ofNat_emod]
  exact congrArg _ ((Nat.mod_modEq n Ln).add_right 1)

/-- The ring-buffer insert preserves the representation invariant: if `s`
faithfully represents the history `hs`, a successful `insertPrice s p`
faithfully represents `hs ++ [p]`. -/
theorem insertPrice_faithful (sym : String) (S : Int) (Ln : Nat) (hLn : 0 < Ln)
    (hs : List Int) (s : SMACrossStrategy) (p : Int) (s1 : SMACrossStrategy)
    (hf : Faithful sym S Ln hs s) (h : insertPrice s p = .ok s1) :
    Faithful sym S Ln (hs ++ [p]) s1 := by
  obtain ⟨f1, f2, f3, f4, f5, f6, f7, f8⟩ := hf
  obtain ⟨sum1, sum2, hd, h1, h2, h3, hrec⟩ := insertPrice_ok_eq h
  have hsum2 := SafeAdd_ok_eq h2
  have hheadnat : s.head.toNat = hs.length % Ln := by rw [f5]; rfl
  have hlen : (hs ++ [p]).length = hs.length + 1 := by simp
  have hdeq : hd = (((hs.length + 1) % Ln : Nat) : Int) := by
    unfold goIntMod at h3
    rw [if_neg (by rw [f3]; exact_mod_cast hLn.ne')] at h3
    injection h3 with h3
    rw [← h3, f5, f3]
    rw [show ((hs.length % Ln : Nat) : Int) + 1 = ((hs.length % Ln + 1 : Nat) : Int)
      from by push_cast; ring]
    rw [Int.tmod_eq_emod (by positivity) (by positivity), natCast_mod_add_one_emod]
  subst hrec
  refine ⟨f1, f2, f3, ?_, ?_, ?_, ?_, ?_⟩
  · show (s.prices.set s.head.toNat p).length = Ln
    rw [List.length_set]; exact f4
  · show hd = (((hs ++ [p]).length % Ln : Nat) : Int)
    rw [hdeq, hlen]
  · show (if s.count < s.longPeriod then s.count + 1 else s.count) =
      ((min (hs ++ [p]).length Ln : Nat) : Int)
    rw [hlen, f6, f3]
    split_ifs with hi <;> omega
  · show sum2 = ((hs ++ [p]).drop ((hs ++ [p]).length - Ln)).sum
    rw [hlen, hsum2]
    by_cases hfull : Ln ≤ hs.length
    · have hcond : s.count = s.longPeriod := by
        rw [f6, f3]; exact Nat.cast_inj.mpr (by omega)
      rw [if_pos hcond] at h1
      have hsum1 := SafeSub_ok_eq h1
      have hmod : (hs.length - Ln) % Ln = hs.length % Ln := by
        conv_rhs => rw [← Nat.sub_add_cancel hfull]
        rw [Nat.add_mod_right]
      have hold : s.prices.getD s.head.toNat 0 = hs.getD (hs.length - Ln) 0 := by
        rw [hheadnat, ← hmod]
        exact f8 (hs.length - Ln) (by omega) (by omega)
      have hlt : hs.length - Ln < hs.length := by omega
      have hdropcons : hs.drop (hs.length - Ln) =
          hs.getD (hs.length - Ln) 0 :: hs.drop (hs.length - Ln + 1) := by
        rw [List.getD_eq_getElem hs 0 hlt]
        exact List.drop_eq_getElem_cons hlt
      have heq : hs.length - Ln + 1 = hs.length + 1 - Ln := by omega
      rw [hsum1, hold, f7, hdropcons, ← heq,
        List.drop_append_of_le_length (by omega)]
      simp only [List.sum_cons, List.sum_append, List.sum_nil]
      omega
    · have hcond : ¬ s.count = s.longPeriod := by
        rw [f6, f3]
        simp only [Nat.cast_inj]
        omega
      rw [if_neg hcond] at h1
      injection h1 with h1
      have h0 : hs.length - Ln = 0 := by omega
      have h0' : hs.length + 1 - Ln = 0 := by omega
      rw [← h1, f7, h0, h0']
      simp only [List.drop_zero, List.sum_append, List.sum_cons, List.sum_nil]
      omega
  · intro j hj1 hj2
    rw [hlen] at hj1 hj2
    show (s.prices.set s.head.toNat p).getD (j % Ln) 0 = (hs ++ [p]).getD j 0
    rw [hheadnat]
    by_cases hj : j = hs.length
    · subst hj
      have hsetlt : hs.length % Ln < s.prices.length := by
        rw [f4]; exact Nat.mod_lt _ hLn
      rw [getD_set_self _ _ _ hsetlt,
        List.getD_append_right hs [p] 0 hs.length le_rfl]
      simp
    · have hjlt : j < hs.length := by omega
      have hne : hs.length % Ln ≠ j % Ln := by
        intro hmod
        have hdvd : Ln ∣ hs.length - j := (Nat.modEq_iff_dvd' hjlt.le).mp hmod.symm
        have hle := Nat.le_of_dvd (by omega) hdvd
        omega
      rw [getD_set_ne _ _ _ _ hne, List.getD_append hs [p] 0 j hjlt]
      exact f8 j (by omega) hjlt

/-- A full `OnMarketUpdate` step for the configured symbol preserves the
representation invariant (the SMA/cross tail of the function only touches
the `prev` fields, which the invariant does not constrain). -/
theorem OnMarketUpdate_faithful (sym : String) (S : Int) (Ln : Nat)
    (hLn : 0 < Ln) (hs : List Int) (s : SMACrossStrategy) (st : MarketState)
    (s' : SMACrossStrategy) (acts : List Action) (hsym : st.Symbol = s.symbol)
    (hf : Faithful sym S Ln hs s) (h : OnMarketUpdate s st = .ok (s', acts)) :
    Faithful sym S Ln (hs ++ [st.PriceMicros]) s' := by
  unfold OnMarketUpdate at h
  rw [if_neg (by simp [hsym])] at h
  cases hip : insertPrice s st.PriceMicros with
  | error m => simp only [hip] at h; injection h
  | ok s1 =>
    simp only [hip] at h
    have hf1 := insertPrice_faithful sym S Ln hLn hs s st.PriceMicros s1 hf hip
    by_cases hwarm : s1.count < s1.longPeriod
    · rw [if_pos hwarm] at h
      simp only [Except.ok.injEq, Prod.mk.injEq] at h
      obtain ⟨hs1, -⟩ := h
      exact hs1 ▸ hf1
    · rw [if_neg hwarm] at h
      cases h4 : SafeDiv s1.sum s1.longPeriod with
      | error m => simp only [h4] at h; injection h
      | ok lsma =>
        simp only [h4] at h
        cases h5 : calculateShortSMA s1 with
        | error m => simp only [h5] at h; injection h
        | ok ssma =>
          simp only [h5] at h
          simp only [Except.ok.injEq, Prod.mk.injEq] at h
          obtain ⟨hs1, -⟩ := h
          rw [← hs1]
          obtain ⟨f1, f2, f3, f4, f5, f6, f7, f8⟩ := hf1
          exact ⟨f1, f2, f3, f4, f5, f6, f7, f8⟩

/-- Feeding a price list through `OnMarketUpdate` extends the represented
history by that list. -/
theorem runUpdates_faithful (sym : String) (S : Int) (Ln : Nat) (hLn : 0 < Ln)
    (ps : List Int) :
    ∀ (hs : List Int) (s s' : SMACrossStrategy) (actss : List (List Action)),
      Faithful sym S Ln hs s → runUpdates sym s ps = .ok (s', actss) →
      Faithful sym S Ln (hs ++ ps) s' := by
  induction ps with
  | nil =>
    intro hs s s' actss hf h
    simp only [runUpdates] at h
    simp only [Except.ok.injEq, Prod.mk.injEq] at h
    obtain ⟨hs1, -⟩ := h
    rw [List.append_nil, ← hs1]
    exact hf
  | cons q ps ih =>
    intro hs s s' actss hf h
    simp only [runUpdates] at h
    cases h1 : OnMarketUpdate s ⟨q, 0, 0, sym⟩ with
    | error m => simp only [h1] at h; injection h
    | ok pr =>
      obtain ⟨s1, acts⟩ := pr
      simp only [h1] at h
      cases h2 : runUpdates sym s1 ps with
      | error m => simp only [h2] at h; injection h
      | ok pr2 =>
        obtain ⟨s2, rest⟩ := pr2
        simp only [h2] at h
        simp only [Except.ok.injEq, Prod.mk.injEq] at h
        obtain ⟨h2', -⟩ := h
        subst h2'
        have hstep := OnMarketUpdate_faithful sym S Ln hLn hs s _ s1 acts
          hf.1.symm hf h1
        have hrec := ih (hs ++ [q]) s1 s2 rest hstep h2
        simpa using hrec

/-- C7: for every run of the reference SMA-cross strategy (valid
construction, positive long period) over any price list for its configured
symbol, the final internal `sum` equals the arithmetic sum of the last
`min(count, L)` prices fed, where `count` is the number of samples capped at
the long period `L`. -/
theorem sma_sum_invariant (sym : String) (S L : Int) (ps : List Int)
    (s0 s' : SMACrossStrategy) (actss : List (List Action))
    (h0 : NewSMACrossStrategy sym S L = .ok s0) (hL : 0 < L)
    (hrun : runUpdates sym s0 ps = .ok (s', actss)) :
    s'.sum = (ps.drop (ps.length - min ps.length L.toNat)).sum := by
  have hLn : 0 < L.toNat := by omega
  have hF0 : Faithful sym S L.toNat [] s0 := by
    unfold NewSMACrossStrategy at h0
    split at h0
    · injection h0
    · split at h0
      · injection h0
      · injection h0 with h0
        rw [← h0]
        refine ⟨rfl, rfl, (Int.toNat_of_nonneg (le_of_lt hL)).symm, ?_, ?_, ?_, ?_, ?_⟩
        · exact List.length_replicate L.toNat 0
        · simp
        · simp
        · simp
        · intro j _ hj
          simp at hj
  have hF := runUpdates_faithful sym S L.toNat hLn ps [] s0 s' actss hF0 hrun
  have f7 := hF.2.2.2.2.2.2.1
  simp only [List.nil_append] at f7
  have hmin : ps.length - L.toNat = ps.length - min ps.length L.toNat := by omega
  rw [f7, hmin]

/-- Witness for the sum invariant: after the six demo updates the internal
sum is `600`, the sum of the last five prices `[100, 100, 100, 100, 200]`. -/
theorem sma_sum_invariant_witness :
    NewSMACrossStrategy "BTC" 3 5 = .ok c7s0 ∧ (0 : Int) < 5 ∧
    runUpdates "BTC" c7s0 [100, 100, 100, 100, 100, 200] = .ok (c7sFinal, c7acts) ∧
    c7sFinal.sum = (([100, 100, 100, 100, 100, 200] : List Int).drop
      (6 - min 6 (5 : Int).toNat)).sum :=
  ⟨by rfl, by decide, by rfl,
    sma_sum_invariant "BTC" 3 5 [100, 100, 100, 100, 100, 200] c7s0 c7sFinal
      c7acts (by rfl) (by decide) (by rfl)⟩

/-- C10 (amended): `NewSMACrossStrategy` succeeds exactly when
`shortPeriod < longPeriod` and `longPeriod ≥ 0`: the explicit guard rejects
`shortPeriod ≥ longPeriod`, the slice allocation panics for a negative
`longPeriod`, and nothing enforces a lower bound on `shortPeriod` (zero and
negative short periods are accepted). -/
theorem sma_construction :
    (∀ (sym : String) (S L : Int), S < L → 0 ≤ L →
      NewSMACrossStrategy sym S L = .ok
        { symbol := sym, shortPeriod := S, longPeriod := L,
          prices := List.replicate L.toNat 0, head := 0, count := 0, sum := 0,
          prevShortSMA := 0, prevLongSMA := 0 }) ∧
    (∀ (sym : String) (S L : Int), L ≤ S ∨ L < 0 →
      ∃ msg, NewSMACrossStrategy sym S L = .error msg) := by
  constructor
  · intro sym S L hSL hL
    unfold NewSMACrossStrategy
    rw [if_neg (by omega), if_neg (by omega)]
  · intro sym S L h
    unfold NewSMACrossStrategy
    by_cases hSL : S ≥ L
    · rw [if_pos hSL]; exact ⟨_, rfl⟩
    · rw [if_neg hSL, if_pos (by omega)]; exact ⟨_, rfl⟩

/-- Witness for the construction theorem: `SMACross(0, 3)` is accepted
(no lower bound on the short period) and `SMACross(5, 3)` is rejected. -/
theorem sma_construction_witness :
    (0 : Int) < 3 ∧ (0 : Int) ≤ 3 ∧
    NewSMACrossStrategy "BTC" 0 3 = .ok
      { symbol := "BTC", shortPeriod := 0, longPeriod := 3,
        prices := List.replicate (3 : Int).toNat 0, head := 0, count := 0,
        sum := 0, prevShortSMA := 0, prevLongSMA := 0 } ∧
    ((3 : Int) ≤ 5 ∨ (3 : Int) < 0) ∧
    (∃ msg, NewSMACrossStrategy "BTC" 5 3 = .error msg) :=
  ⟨by decide, by decide, sma_construction.1 "BTC" 0 3 (by decide) (by decide),
    Or.inl (by decide), sma_construction.2 "BTC" 5 3 (Or.inl (by decide))⟩

/-- C10 (counterexample): with `shortPeriod = -5` strictly less than
`longPeriod = -2` the constructor still panics (`make([]int64, -2)`), so
"panics if and only if shortPeriod ≥ longPeriod" fails. -/
theorem sma_construction_counterexample :
    (-5 : Int) < -2 ∧
    NewSMACrossStrategy "BTC" (-5) (-2) = .error "makeslice: len out of range" :=
  ⟨by decide, by rfl⟩

end CryptoGo
